import Mathlib

/-!
Verification development for the gopls incremental workspace model
(golang.org/x/tools/gopls). Go source is shallowly embedded in Lean:
byte slices become `List Nat`, maps become functions into `Option`,
fallible Go functions return `Except String`, and the content hash is
modelled as the content itself (a collision-free hash abstraction).
-/

namespace GoplsModel

/-- Package identifiers, paths and names (`source.PackageID` etc.) are
distinct string types in Go; a string suffices here. -/
abbrev PackageID := String
abbrev PackagePath := String

/-- Embedding of `source.Metadata` (the fields the package-selection
logic reads: identity, path, test-variant marker, compiled files). -/
structure Metadata where
  ID : PackageID
  PkgPath : PackagePath
  ForTest : PackagePath
  CompiledGoFiles : List String
  deriving DecidableEq, Repr

/-- Embedding of `(*Metadata).IsIntermediateTestVariant`:
`m.ForTest != "" && m.ForTest != m.PkgPath && m.ForTest+"_test" != m.PkgPath`. -/
def Metadata.IsIntermediateTestVariant (m : Metadata) : Bool :=
  m.ForTest != "" && m.ForTest != m.PkgPath && m.ForTest ++ "_test" != m.PkgPath

/-- Embedding of `source.RemoveIntermediateTestVariants`: keeps, in
order, exactly the metadata that are not intermediate test variants
(the Go code filters in place via `metas[:0]` and `append`). -/
def RemoveIntermediateTestVariants (metas : List Metadata) : List Metadata :=
  metas.filter (fun m => !m.IsIntermediateTestVariant)

/-- Embedding of `source.NarrowestMetadataForFile`, as a function of
the list returned by `snapshot.MetadataForFile`: filter intermediate
test variants, then take the first element (`none` models the
"no package metadata for file" error). -/
def NarrowestMetadataForFile (metas : List Metadata) : Option Metadata :=
  (RemoveIntermediateTestVariants metas).head?

/-- Embedding of `source.selectPackageForFile`, as a function of the
list returned by `snapshot.MetadataForFile`: filter intermediate test
variants, then apply the selector; the selected metadata's ID is the
one passed to `snapshot.TypeCheck`. -/
def selectPackageForFile (selector : List Metadata → Option Metadata)
    (metas : List Metadata) : Option Metadata :=
  selector (RemoveIntermediateTestVariants metas)

/-- Embedding of `source.NarrowestPackageForFile` (selector `metas[0]`). -/
def NarrowestPackageForFile (metas : List Metadata) : Option Metadata :=
  selectPackageForFile List.head? metas

/-- Embedding of `source.WidestPackageForFile`
(selector `metas[len(metas)-1]`). -/
def WidestPackageForFile (metas : List Metadata) : Option Metadata :=
  selectPackageForFile List.getLast? metas

/-- The documented ordering contract of `snapshot.MetadataForFile`:
results ordered by number of CompiledGoFiles (narrowest to widest),
and secondarily by IsIntermediateTestVariant (false < true). -/
def metadataLE (a b : Metadata) : Prop :=
  a.CompiledGoFiles.length < b.CompiledGoFiles.length ∨
    (a.CompiledGoFiles.length = b.CompiledGoFiles.length ∧
      (a.IsIntermediateTestVariant = true → b.IsIntermediateTestVariant = true))

/-- A metadata list satisfying the `MetadataForFile` ordering contract. -/
def MetadataForFileOrdered (metas : List Metadata) : Prop :=
  List.Pairwise metadataLE metas

instance : DecidableRel metadataLE := fun a b => by
  unfold metadataLE
  infer_instance

instance : DecidablePred MetadataForFileOrdered := fun metas => by
  unfold MetadataForFileOrdered
  infer_instance

/-- File content (`[]byte`) as a list of byte values. -/
abbrev Content := List Nat

/-- Embedding of `file.HashOf`: the hash is modelled as the content
itself, a collision-free abstraction of the real digest. -/
def HashOf (c : Content) : Content := c

/-- Embedding of `file.Action` (the modification kinds of
`file.Modification`). -/
inductive Action where
  | Open
  | Change
  | Close
  | Save
  | Create
  | Delete
  | UnknownAction
  deriving DecidableEq, Repr

/-- Embedding of `file.Modification` (the fields `updateOverlays` and
`DidModifyFiles` read). -/
structure Modification where
  URI : String
  Action : Action
  OnDisk : Bool
  Version : Int
  Text : Option Content
  LanguageID : String
  deriving DecidableEq, Repr

/-- Modelled from the spec: `file.KindForLang` is not among these
sources; per the spec, open "creates an overlay with kind inferred
from the editor-declared language identifier", so the kind is modelled
as the language identifier itself. -/
def KindForLang (languageID : String) : String := languageID

/-- Embedding of `cache.Overlay`: an in-memory unsaved file version
(uri, editor version, content, kind, content hash, saved flag). -/
structure Overlay where
  uri : String
  version : Int
  content : Content
  kind : String
  hash : Content
  saved : Bool
  deriving DecidableEq, Repr

/-- The overlay store `overlayFS.overlays`, as a map from URI. -/
abbrev OverlayMap := String → Option Overlay

/-- The loop body of `overlayFS.updateOverlays` for one modification
`c` against overlay store `ov` (with `disk` standing for the delegate
file source read by `mustReadFile`). Every `error` in the Go loop
occurs before the store write `fs.overlays[c.URI] = o`, so an erroring
step leaves the store unchanged. -/
def updateOverlayStep (disk : String → Option Content) (ov : OverlayMap)
    (c : Modification) : Except String OverlayMap :=
  -- o, ok := fs.overlays[c.URI]; if !ok && c.OnDisk { continue }
  if (ov c.URI).isNone && c.OnDisk then .ok ov else
  -- determine the file kind on open, otherwise it must be cached
  match (match c.Action, ov c.URI with
         | Action.Open, _ => Except.ok (KindForLang c.LanguageID)
         | _, none => Except.error "updateOverlays: modifying unopened overlay"
         | _, some o => Except.ok o.kind) with
  | .error e => .error e
  | .ok kind =>
  -- closing a file just deletes its overlay
  if c.Action == Action.Close then
    .ok (fun u => if u = c.URI then none else ov u) else
  -- saves and on-disk changes don't carry content: reuse the overlay's
  match (if c.Text.isNone && (c.Action == Action.Save || c.OnDisk) then
           match ov c.URI with
           | none => Except.error "no known content for overlay"
           | some o => Except.ok (some o.content)
         else Except.ok c.Text) with
  | .error e => .error e
  | .ok text =>
  -- on-disk changes and saves don't carry versions: reuse the overlay's
  let version : Int :=
    if c.OnDisk || c.Action == Action.Save then
      match ov c.URI with
      | some o => o.version
      | none => c.Version   -- unreachable: guarded by the two checks above
    else c.Version
  let hash := HashOf (text.getD [])
  match (match c.Action, ov c.URI with
         | Action.Delete, _ => Except.ok false
         | Action.Save, some o =>
             -- make sure the content (if present) is the same
             if c.Text.isSome && o.hash != hash then
               Except.error ("updateOverlays: overlay " ++ c.URI ++ " changed on save")
             else Except.ok true
         | Action.Save, none => Except.ok true   -- unreachable: errored at the kind check
         | _, _ =>
             -- read the delegate source to see if content matches disk
             match disk c.URI with
             | some d => Except.ok (HashOf d == hash)
             | none => Except.ok false) with
  | .error e => .error e
  | .ok saved =>
    .ok (fun u => if u = c.URI then
           some ⟨c.URI, version, text.getD [], kind, hash, saved⟩
         else ov u)

/-- Embedding of `overlayFS.updateOverlays`: the modifications of a
batch are applied sequentially to the store (which Go mutates in
place); a failing modification stops the loop, returning the error
together with the store as already mutated by the earlier
modifications. -/
def updateOverlays (disk : String → Option Content) (ov : OverlayMap)
    (changes : List Modification) : OverlayMap × Option String :=
  match changes with
  | [] => (ov, none)
  | c :: rest =>
    match updateOverlayStep disk ov c with
    | .error e => (ov, some e)
    | .ok ov' => updateOverlays disk ov' rest

/-- Embedding of `protocol.Range`, with positions modelled as byte
offsets into the current content. -/
structure Range where
  Start : Nat
  End : Nat
  deriving DecidableEq, Repr

/-- Embedding of `protocol.TextDocumentContentChangeEvent`: an optional
range (nil means full-content replacement), the deprecated RangeLength,
and the new text. -/
structure TextDocumentContentChangeEvent where
  Range : Option Range
  RangeLength : Nat
  Text : Content
  deriving DecidableEq, Repr

/-- The file state visible to the server: the overlay store plus the
on-disk contents (the session's delegate file source). Overlay lookups
take precedence over disk reads. -/
structure FS where
  overlays : OverlayMap
  disk : String → Option Content

/-- Reading a file's content through the session (`session.ReadFile`
followed by `fh.Content()`): an overlay shadows the disk; a missing
disk file yields the handle's stored read error. -/
def readFileContent (fs : FS) (uri : String) : Except String Content :=
  match fs.overlays uri with
  | some o => .ok o.content
  | none =>
    match fs.disk uri with
    | some c => .ok c
    | none => .error "file not found"

/-- Modelled from the spec: `protocol.Mapper.RangeOffsets` (the mapper
sources are not among these files). Positions are byte offsets, and
the mapper validates that each edit range is in bounds of the current
content, per the spec's "validating that incremental-edit ranges are
non-decreasing and in-bounds". -/
def RangeOffsets (content : Content) (r : Range) : Except String (Nat × Nat) :=
  if r.Start ≤ content.length ∧ r.End ≤ content.length then .ok (r.Start, r.End)
  else .error "column is beyond end of line"

/-- The loop of `server.applyIncrementalChanges` over the already-read
content: each change needs a non-nil range, its offsets must be in
bounds, an inverted range (end before start) is a fatal request error,
and otherwise the spliced content feeds the next change. -/
def applyContentChanges (content : Content)
    (changes : List TextDocumentContentChangeEvent) : Except String Content :=
  match changes with
  | [] => .ok content
  | c :: rest =>
    match c.Range with
    | none => .error "unexpected nil range for change"
    | some r =>
      match RangeOffsets content r with
      | .error e => .error e
      | .ok (s, e) =>
        if e < s then .error "invalid range for content change"
        else applyContentChanges (content.take s ++ c.Text ++ content.drop e) rest

/-- Embedding of `server.applyIncrementalChanges`: read the current
content for the URI (overlay first), then apply the changes in order. -/
def applyIncrementalChanges (fs : FS) (uri : String)
    (changes : List TextDocumentContentChangeEvent) : Except String Content :=
  match readFileContent fs uri with
  | .error e => .error e
  | .ok content => applyContentChanges content changes

/-- Embedding of `server.changedText`: an empty change list is an
error; a single change with nil range and zero RangeLength is accepted
verbatim as the full new content; anything else is applied
incrementally. -/
def changedText (fs : FS) (uri : String)
    (changes : List TextDocumentContentChangeEvent) : Except String Content :=
  match changes with
  | [] => .error "no content changes provided"
  | [c] =>
    if c.Range.isNone && (c.RangeLength == 0) then .ok c.Text
    else applyIncrementalChanges fs uri [c]
  | _ => applyIncrementalChanges fs uri changes

/-- Embedding of `server.DidChange` restricted to the overlay store: on
a changedText error the request fails and no state changes; otherwise
the computed full text is applied as a `file.Change` modification
through `updateOverlays` (the overlay part of `didModifyFiles`). -/
def DidChange (st : FS) (uri : String) (version : Int)
    (changes : List TextDocumentContentChangeEvent) : FS × Option String :=
  match changedText st uri changes with
  | .error e => (st, some e)
  | .ok text =>
    match updateOverlays st.disk st.overlays
        [⟨uri, Action.Change, false, version, some text, ""⟩] with
    | (ov', e?) => (FS.mk ov' st.disk, e?)

/-- Embedding of `file.Identity`: a URI plus a content hash (the zero
hash is the empty content). -/
structure FileIdentity where
  URI : String
  Hash : Content
  deriving DecidableEq, Repr

/-- A file handle as consumed by the session: either a regular handle
(with its identity, saved flag, version and content-or-error), or a
`cache.brokenFile` recording an unexpected read failure. -/
inductive FileHandle where
  | file (uri : String) (identity : FileIdentity) (sameDisk : Bool)
      (version : Int) (content : Except String Content)
  | broken (uri : String) (err : String)
  deriving Repr

def FileHandle.URI : FileHandle → String
  | .file uri _ _ _ _ => uri
  | .broken uri _ => uri

def FileHandle.Identity : FileHandle → FileIdentity
  | .file _ identity _ _ _ => identity
  | .broken uri _ => ⟨uri, []⟩

def FileHandle.SameContentsOnDisk : FileHandle → Bool
  | .file _ _ sameDisk _ _ => sameDisk
  | .broken _ _ => false

def FileHandle.Version : FileHandle → Int
  | .file _ _ _ version _ => version
  | .broken _ _ => 0

def FileHandle.Content : FileHandle → Except String Content
  | .file _ _ _ _ content => content
  | .broken _ err => .error err

/-- Embedding of `cache.mustReadFile`: the read runs against a
detached context (the boolean cancellation flag passed to the
underlying ReadFile is forced to `false`, whatever the caller's flag
is), and a read failure is converted into a `brokenFile` handle rather
than propagated. -/
def mustReadFile (readFile : Bool → String → Except String FileHandle)
    (_callerCancelled : Bool) (uri : String) : FileHandle :=
  match readFile false uri with
  | .ok fh => fh
  | .error e => .broken uri e

/-- The base name of a slash-separated path, as a character list. -/
def baseNameChars (cs : List Char) : List Char :=
  cs.foldl (fun acc ch => if ch = '/' then [] else acc ++ [ch]) []

/-- Modelled from the spec: `cache.isGoMod` (its definition is not
among these sources, only call sites); a module-manifest ("module
definition") file is one whose base name is go.mod. -/
def isGoMod (uri : String) : Bool :=
  baseNameChars uri.data == "go.mod".data

/-- Modelled from the spec: `cache.isGoWork` (its definition is not
among these sources, only call sites); a workspace-manifest
("workspace definition") file is one whose base name is go.work. -/
def isGoWork (uri : String) : Bool :=
  baseNameChars uri.data == "go.work".data

/-- The view data `Session.DidModifyFiles` manipulates: an identifier,
the current view definition (abstracted to a string, compared with
`viewDefinitionsEqual`), and a generation counter bumped each time the
view is recreated in place. -/
structure View where
  id : String
  viewDefinition : String
  generation : Nat
  deriving DecidableEq, Repr

/-- Embedding of `Session.updateViewLocked`: the old view is dropped
and a fresh view is created for the same folder with the new
definition — a fresh snapshot whose metadata graph is reloaded
wholesale, modelled by bumping the generation. -/
def updateView (v : View) (d : String) : View :=
  ⟨v.id, d, v.generation + 1⟩

/-- Embedding of the `checkViews` computation in
`Session.DidModifyFiles`: view definitions are re-evaluated only when
some change is a go.work file that was saved or changed on disk, or a
go.mod file whose action is neither Change nor Save. -/
def checkViews (changes : List Modification) : Bool :=
  changes.any fun c =>
    (isGoWork c.URI && (c.Action == Action.Save || c.OnDisk)) ||
    (isGoMod c.URI && !(c.Action == Action.Change) && !(c.Action == Action.Save))

/-- The view-recreation part of `Session.DidModifyFiles`: when
checkViews holds, every view whose freshly computed definition
(`getViewDefinition`, abstracted as `getDef`) differs from its current
one is recreated via updateViewLocked; otherwise the views are left
untouched. -/
def didModifyFilesViews (getDef : View → String) (views : List View)
    (changes : List Modification) : List View :=
  if checkViews changes then
    views.map fun v => if getDef v == v.viewDefinition then v else updateView v (getDef v)
  else views

/-- Program counter of one `Snapshot.ModVuln` caller: the locked cache
lookup, the locked store of a freshly created promise, the await of
the promise held in the caller's local `entry`, and completion. -/
inductive CallerPC where
  | start
  | setP
  | awaitP
  | finished
  deriving DecidableEq, Repr

/-- One ModVuln caller: its program counter and its local `entry`
variable (a promise, identified by the index of the caller that
created it). -/
structure Caller where
  pc : CallerPC
  entry : Option Nat
  deriving DecidableEq, Repr

/-- Interleaved state of N complete ModVuln calls for one key: the
`modVulnHandles` entry for that key, and each caller's local state. -/
structure ModVulnState where
  store : Option Nat
  callers : List Caller
  deriving DecidableEq, Repr

/-- One atomic step of caller `i` in `Snapshot.ModVuln`. The mutex
protects the `Get` and the `Set` individually, but is released in
between, exactly as in the source: a caller that misses creates a new
promise (`memoize.NewPromise`) outside the lock and then stores it,
overwriting whatever is there; `awaitPromise` awaits the caller's own
local `entry`. -/
def stepCaller (s : ModVulnState) (i : Nat) : ModVulnState :=
  match s.callers[i]? with
  | none => s
  | some c =>
    match c.pc with
    | .start =>
      match s.store with
      | some p => ⟨s.store, s.callers.set i ⟨.awaitP, some p⟩⟩
      | none => ⟨s.store, s.callers.set i ⟨.setP, some i⟩⟩
    | .setP => ⟨c.entry, s.callers.set i ⟨.awaitP, c.entry⟩⟩
    | .awaitP => ⟨s.store, s.callers.set i ⟨.finished, c.entry⟩⟩
    | .finished => s

/-- Run the callers under a schedule (a list of caller indices). -/
def execModVuln (s : ModVulnState) (sched : List Nat) : ModVulnState :=
  sched.foldl stepCaller s

/-- Initial state for `n` concurrent ModVuln callers of one key. -/
def initModVuln (n : Nat) : ModVulnState :=
  ⟨none, List.replicate n ⟨.start, none⟩⟩

/-- The distinct promises awaited by completed callers. Under the
memoize contract each distinct promise runs its compute function
exactly once (on first await), so this counts the number of times the
underlying vulnerability scan runs. -/
def awaitedPromises (s : ModVulnState) : List Nat :=
  (s.callers.filterMap fun c => if c.pc == CallerPC.finished then c.entry else none).dedup

/-- Number of underlying computations run: one per distinct awaited
promise. -/
def computationsRun (s : ModVulnState) : Nat :=
  (awaitedPromises s).length

end GoplsModel

open GoplsModel

theorem mem_of_getLast?_eq {α : Type} {l : List α} {w : α}
    (h : l.getLast? = some w) : w ∈ l := by
  rcases List.mem_getLast?_eq_getLast (by simpa using h) with ⟨hne, rfl⟩
  exact List.getLast_mem hne

theorem metadataLE_length_le {a b : Metadata} (h : metadataLE a b) :
    a.CompiledGoFiles.length ≤ b.CompiledGoFiles.length := by
  rcases h with h | ⟨h, _⟩
  · exact Nat.le_of_lt h
  · exact Nat.le_of_eq h

theorem head?_min_of_pairwise {l : List Metadata} {n : Metadata}
    (hp : List.Pairwise metadataLE l) (hh : l.head? = some n) :
    ∀ m ∈ l, n.CompiledGoFiles.length ≤ m.CompiledGoFiles.length := by
  cases l with
  | nil => cases hh
  | cons x xs =>
    cases hh
    intro m hm
    rcases List.mem_cons.1 hm with rfl | hm
    · exact Nat.le_refl _
    · exact metadataLE_length_le ((List.pairwise_cons.1 hp).1 m hm)

theorem getLast?_max_of_pairwise {l : List Metadata} {w : Metadata}
    (hp : List.Pairwise metadataLE l) (hl : l.getLast? = some w) :
    ∀ m ∈ l, m.CompiledGoFiles.length ≤ w.CompiledGoFiles.length := by
  induction l with
  | nil => cases hl
  | cons x xs ih =>
    intro m hm
    cases xs with
    | nil =>
      simp only [List.getLast?_singleton, Option.some.injEq] at hl
      rcases List.mem_singleton.1 hm with rfl
      exact hl ▸ Nat.le_refl _
    | cons y ys =>
      have hl' : (y :: ys).getLast? = some w := by
        simpa [List.getLast?_cons_cons] using hl
      have hp' := List.pairwise_cons.1 hp
      rcases List.mem_cons.1 hm with rfl | hm
      · have hw : w ∈ y :: ys := mem_of_getLast?_eq hl'
        exact metadataLE_length_le (hp'.1 w hw)
      · exact ih hp'.2 hl' m hm

/-- C9: a Metadata entry is an intermediate test variant exactly when its
ForTest field is non-empty, differs from its PkgPath, and ForTest+"_test"
differs from its PkgPath; RemoveIntermediateTestVariants never removes an
ordinary package, an in-package test variant, or an external x_test
package, and it preserves the relative order of the metadata it keeps. -/
theorem C9_itv_classification_and_removal :
    ∀ (m : Metadata) (metas : List Metadata),
      (m.IsIntermediateTestVariant = true ↔
        (m.ForTest ≠ "" ∧ m.ForTest ≠ m.PkgPath ∧ m.ForTest ++ "_test" ≠ m.PkgPath)) ∧
      (m ∈ metas →
        (m.ForTest = "" ∨ m.PkgPath = m.ForTest ∨ m.PkgPath = m.ForTest ++ "_test") →
        m ∈ RemoveIntermediateTestVariants metas) ∧
      (RemoveIntermediateTestVariants metas).Sublist metas := by
  intro m metas
  refine ⟨?_, ?_, List.filter_sublist metas⟩
  · simp [Metadata.IsIntermediateTestVariant, and_assoc]
  · intro hm hkeep
    refine List.mem_filter.2 ⟨hm, ?_⟩
    simp only [Metadata.IsIntermediateTestVariant, Bool.not_eq_true', Bool.and_eq_false_iff,
      bne, Bool.not_eq_false', beq_iff_eq]
    rcases hkeep with h | h | h
    · exact Or.inl (Or.inl h)
    · exact Or.inl (Or.inr h.symm)
    · exact Or.inr h.symm

/-- C9 witness: the ordinary package `p` survives removal from a
concrete list that also contains an intermediate test variant. -/
theorem C9_itv_classification_and_removal_witness :
    (⟨"p", "p", "", ["a.go"]⟩ : Metadata) ∈
      RemoveIntermediateTestVariants
        [⟨"p", "p", "", ["a.go"]⟩, ⟨"p [q.test]", "p", "q", ["a.go"]⟩] :=
  (C9_itv_classification_and_removal ⟨"p", "p", "", ["a.go"]⟩
      [⟨"p", "p", "", ["a.go"]⟩, ⟨"p [q.test]", "p", "q", ["a.go"]⟩]).2.1
    (by decide) (Or.inl rfl)

/-- C1: the narrowest and widest package selections
(NarrowestMetadataForFile, NarrowestPackageForFile, WidestPackageForFile)
never return an intermediate test variant: the list from MetadataForFile
is filtered by RemoveIntermediateTestVariants before any element is
selected or its ID passed to TypeCheck. -/
theorem C1_selection_never_returns_itv :
    ∀ (metas : List Metadata) (m : Metadata),
      (NarrowestMetadataForFile metas = some m ∨
       NarrowestPackageForFile metas = some m ∨
       WidestPackageForFile metas = some m) →
      m.IsIntermediateTestVariant = false := by
  intro metas m h
  have hmem : m ∈ RemoveIntermediateTestVariants metas := by
    rcases h with h | h | h
    · exact List.mem_of_mem_head? h
    · exact List.mem_of_mem_head? h
    · exact mem_of_getLast?_eq h
  have := (List.mem_filter.1 hmem).2
  simpa using this

/-- C1 witness: on a concrete list containing an intermediate test
variant, the narrowest selection returns the ordinary package, which is
not an intermediate test variant. -/
theorem C1_selection_never_returns_itv_witness :
    (⟨"p", "p", "", ["a.go"]⟩ : Metadata).IsIntermediateTestVariant = false :=
  C1_selection_never_returns_itv
    [⟨"p [q.test]", "p", "q", ["a.go"]⟩, ⟨"p", "p", "", ["a.go"]⟩]
    ⟨"p", "p", "", ["a.go"]⟩ (Or.inl (by decide))

/-- C5: given the MetadataForFile ordering contract (by number of
CompiledGoFiles, then by intermediate-test-variant flag), the narrowest
selection returns the package with the fewest member files and the
widest the one with the most, after intermediate test variants are
removed first. -/
theorem C5_narrowest_widest_extremal :
    ∀ (metas : List Metadata), MetadataForFileOrdered metas →
      ∀ (n w : Metadata),
        NarrowestPackageForFile metas = some n →
        WidestPackageForFile metas = some w →
        ∀ m ∈ RemoveIntermediateTestVariants metas,
          n.CompiledGoFiles.length ≤ m.CompiledGoFiles.length ∧
          m.CompiledGoFiles.length ≤ w.CompiledGoFiles.length := by
  intro metas hord n w hn hw m hm
  have hp : List.Pairwise metadataLE (RemoveIntermediateTestVariants metas) :=
    List.Pairwise.sublist (List.filter_sublist metas) hord
  exact ⟨head?_min_of_pairwise hp hn m hm, getLast?_max_of_pairwise hp hw m hm⟩

/-- C5 witness: on a concrete sorted list (ordinary one-file package,
intermediate test variant, two-file test variant), narrowest picks the
one-file package, widest the two-file package, and the bounds hold for
the surviving two-file variant. -/
theorem C5_narrowest_widest_extremal_witness :
    (⟨"p", "p", "", ["a.go"]⟩ : Metadata).CompiledGoFiles.length ≤
      (⟨"p [p.test]", "p", "p", ["a.go", "a_test.go"]⟩ : Metadata).CompiledGoFiles.length ∧
    (⟨"p [p.test]", "p", "p", ["a.go", "a_test.go"]⟩ : Metadata).CompiledGoFiles.length ≤
      (⟨"p [p.test]", "p", "p", ["a.go", "a_test.go"]⟩ : Metadata).CompiledGoFiles.length :=
  C5_narrowest_widest_extremal
    [⟨"p", "p", "", ["a.go"]⟩, ⟨"p [q.test]", "p", "q", ["a.go"]⟩,
     ⟨"p [p.test]", "p", "p", ["a.go", "a_test.go"]⟩]
    (by decide)
    ⟨"p", "p", "", ["a.go"]⟩ ⟨"p [p.test]", "p", "p", ["a.go", "a_test.go"]⟩
    (by decide) (by decide)
    ⟨"p [p.test]", "p", "p", ["a.go", "a_test.go"]⟩ (by decide)

/-- C3 counterexample: updateOverlays is not transactional per batch.
On the batch [open "a.go", change of the unopened "b.go"] starting from
an empty overlay store, updateOverlays returns an error, yet the
overlay created for "a.go" by the earlier modification remains in the
store. -/
theorem C3_not_transactional_counterexample :
    (updateOverlays (fun _ => none) (fun _ => none)
        [⟨"a.go", Action.Open, false, 1, some [104], "go"⟩,
         ⟨"b.go", Action.Change, false, 1, some [105], ""⟩]).2.isSome = true ∧
    (updateOverlays (fun _ => none) (fun _ => none)
        [⟨"a.go", Action.Open, false, 1, some [104], "go"⟩,
         ⟨"b.go", Action.Change, false, 1, some [105], ""⟩]).1 "a.go" ≠ none := by
  decide

/-- C3 (amended): overlay modifications of a batch are applied
sequentially; when a modification fails, updateOverlays returns its
error, the failing and all later modifications are not applied, but
every modification earlier in the batch remains applied — there is no
rollback of the store. -/
theorem C3_error_keeps_earlier_modifications :
    ∀ (disk : String → Option Content) (ov m : OverlayMap)
      (pre : List Modification) (c : Modification) (post : List Modification)
      (e : String),
      updateOverlays disk ov pre = (m, none) →
      updateOverlayStep disk m c = .error e →
      updateOverlays disk ov (pre ++ c :: post) = (m, some e) := by
  intro disk ov m pre c post e hpre hstep
  induction pre generalizing ov with
  | nil =>
    simp only [updateOverlays] at hpre
    cases hpre
    simp [updateOverlays, hstep]
  | cons p ps ih =>
    simp only [updateOverlays] at hpre ⊢
    cases hs : updateOverlayStep disk ov p with
    | error e' => rw [hs] at hpre; cases hpre
    | ok ov' =>
      rw [hs] at hpre
      exact ih ov' hpre

/-- C3 amended-claim witness: with an empty prefix, a failing change to
an unopened overlay leaves the (empty) store exactly as the prefix left
it, and reports the error. -/
theorem C3_error_keeps_earlier_modifications_witness :
    updateOverlays (fun _ => none) (fun _ => none)
        ([] ++ ⟨"b.go", Action.Change, false, 1, some [105], ""⟩ :: []) =
      (fun _ => none, some "updateOverlays: modifying unopened overlay") :=
  C3_error_keeps_earlier_modifications (fun _ => none) (fun _ => none)
    (fun _ => none) [] ⟨"b.go", Action.Change, false, 1, some [105], ""⟩ [] _
    rfl rfl

/-- C7: for a Save modification of an open overlay, if the client
supplies text whose hash differs from the overlay's stored hash,
updateOverlays reports an internal-consistency error; otherwise (text
with matching hash, or no text) the overlay is replaced by one whose
saved flag is true, with content and version preserved. -/
theorem C7_save_semantics :
    ∀ (disk : String → Option Content) (ov : OverlayMap) (uri : String)
      (o : Overlay) (t : Content) (version : Int),
      ov uri = some o →
      o.hash = HashOf o.content →
      (HashOf t ≠ o.hash →
        updateOverlayStep disk ov ⟨uri, Action.Save, false, version, some t, ""⟩ =
          .error ("updateOverlays: overlay " ++ uri ++ " changed on save")) ∧
      (HashOf t = o.hash →
        updateOverlayStep disk ov ⟨uri, Action.Save, false, version, some t, ""⟩ =
          .ok (fun u => if u = uri then
                 some ⟨uri, o.version, o.content, o.kind, o.hash, true⟩
               else ov u)) ∧
      (updateOverlayStep disk ov ⟨uri, Action.Save, false, version, none, ""⟩ =
          .ok (fun u => if u = uri then
                 some ⟨uri, o.version, o.content, o.kind, o.hash, true⟩
               else ov u)) := by
  intro disk ov uri o t version ho hinv
  refine ⟨?_, ?_, ?_⟩
  · intro hne
    have hb : (o.hash != HashOf t) = true := bne_iff_ne.2 (Ne.symm hne)
    simp [updateOverlayStep, ho, hb]
  · intro heq
    have ht : t = o.content := by simpa [HashOf, hinv] using heq
    subst ht
    simp [updateOverlayStep, ho, hinv]
  · simp [updateOverlayStep, ho, hinv]

/-- C7 witness: saving the overlay for "a.go" with mismatching text
yields the consistency error. -/
theorem C7_save_semantics_witness :
    updateOverlayStep (fun _ => none)
        (fun u => if u = "a.go" then some ⟨"a.go", 3, [1, 2], "go", [1, 2], false⟩ else none)
        ⟨"a.go", Action.Save, false, 7, some [9], ""⟩ =
      .error ("updateOverlays: overlay " ++ "a.go" ++ " changed on save") :=
  (C7_save_semantics (fun _ => none)
      (fun u => if u = "a.go" then some ⟨"a.go", 3, [1, 2], "go", [1, 2], false⟩ else none)
      "a.go" ⟨"a.go", 3, [1, 2], "go", [1, 2], false⟩ [9] 7
      (by simp) rfl).1 (by decide)

/-- C10: changedText errors on an empty change list; a single change
with nil range and zero RangeLength returns its text verbatim as the
full new content, without reading the existing file (the result is
independent of the file state); in every other case the changes are
applied incrementally via applyIncrementalChanges. -/
theorem C10_changedText_cases :
    ∀ (fs fs' : FS) (uri uri' : String)
      (c : TextDocumentContentChangeEvent)
      (changes : List TextDocumentContentChangeEvent),
      (changedText fs uri [] = .error "no content changes provided") ∧
      (c.Range = none → c.RangeLength = 0 →
        changedText fs uri [c] = .ok c.Text ∧
        changedText fs uri [c] = changedText fs' uri' [c]) ∧
      (changes ≠ [] →
        (∀ d, changes = [d] → ¬(d.Range = none ∧ d.RangeLength = 0)) →
        changedText fs uri changes = applyIncrementalChanges fs uri changes) := by
  intro fs fs' uri uri' c changes
  refine ⟨rfl, ?_, ?_⟩
  · intro hr hl
    constructor <;> simp [changedText, hr, hl]
  · intro hne hnot
    match changes with
    | [] => exact absurd rfl hne
    | [d] =>
      have := hnot d rfl
      have hcond : (d.Range.isNone && (d.RangeLength == 0)) = false := by
        cases hdr : d.Range with
        | none =>
          cases hdl : d.RangeLength with
          | zero => exact absurd ⟨hdr, hdl⟩ this
          | succ k => simp [hdl]
        | some r => simp [hdr]
      simp [changedText, hcond]
    | d :: d' :: ds => rfl

/-- C10 witness: a concrete full-content change (nil range, zero
RangeLength) is returned verbatim. -/
theorem C10_changedText_cases_witness :
    changedText ⟨fun _ => none, fun _ => none⟩ "a.go" [⟨none, 0, [7, 8]⟩] = .ok [7, 8] :=
  ((C10_changedText_cases ⟨fun _ => none, fun _ => none⟩ ⟨fun _ => none, fun _ => none⟩
      "a.go" "b.go" ⟨none, 0, [7, 8]⟩ []).2.1 rfl rfl).1

/-- C4: an incremental content-change event whose range end precedes
its range start, or whose range is out of bounds of the overlay's
current content, makes DidChange fail with a request error and leaves
the server's file state (in particular the overlay's stored content for
that URI) unchanged: no clamping, no partial application. -/
theorem C4_malformed_edit_rejected :
    ∀ (st : FS) (uri : String) (version : Int)
      (c : TextDocumentContentChangeEvent)
      (rest : List TextDocumentContentChangeEvent) (r : Range) (o : Overlay),
      st.overlays uri = some o →
      c.Range = some r →
      (r.End < r.Start ∨ o.content.length < r.Start ∨ o.content.length < r.End) →
      (DidChange st uri version (c :: rest)).2.isSome = true ∧
      (DidChange st uri version (c :: rest)).1 = st := by
  intro st uri version c rest r o ho hr hbad
  have hread : readFileContent st uri = .ok o.content := by
    simp [readFileContent, ho]
  have happly : ∃ e, applyContentChanges o.content (c :: rest) = .error e := by
    rcases Nat.lt_or_ge o.content.length r.Start with hs | hs
    · have hcond : ¬(r.Start ≤ o.content.length ∧ r.End ≤ o.content.length) :=
        fun hc => absurd hc.1 (Nat.not_le.2 hs)
      exact ⟨"column is beyond end of line",
        by simp [applyContentChanges, hr, RangeOffsets, hcond]⟩
    rcases Nat.lt_or_ge o.content.length r.End with he | he
    · have hcond : ¬(r.Start ≤ o.content.length ∧ r.End ≤ o.content.length) :=
        fun hc => absurd hc.2 (Nat.not_le.2 he)
      exact ⟨"column is beyond end of line",
        by simp [applyContentChanges, hr, RangeOffsets, hcond]⟩
    have hinv : r.End < r.Start := by
      rcases hbad with h | h | h
      · exact h
      · exact absurd hs (Nat.not_le.2 h)
      · exact absurd he (Nat.not_le.2 h)
    refine ⟨"invalid range for content change", ?_⟩
    simp [applyContentChanges, hr, RangeOffsets, hs, he, hinv]
  rcases happly with ⟨e, happly⟩
  have hinc : applyIncrementalChanges st uri (c :: rest) = .error e := by
    simp [applyIncrementalChanges, hread, happly]
  have hct : changedText st uri (c :: rest) = .error e := by
    match rest with
    | [] => simp [changedText, hr, hinc]
    | d :: ds => simpa [changedText] using hinc
  simp [DidChange, hct]

/-- C4 witness: an inverted edit range (end 1 before start 2) on an
open overlay with three bytes of content is rejected and the state is
unchanged. -/
theorem C4_malformed_edit_rejected_witness :
    (DidChange
        ⟨fun u => if u = "a.go" then some ⟨"a.go", 1, [1, 2, 3], "go", [1, 2, 3], false⟩ else none,
         fun _ => none⟩
        "a.go" 2 [⟨some ⟨2, 1⟩, 0, [9]⟩]).2.isSome = true ∧
    (DidChange
        ⟨fun u => if u = "a.go" then some ⟨"a.go", 1, [1, 2, 3], "go", [1, 2, 3], false⟩ else none,
         fun _ => none⟩
        "a.go" 2 [⟨some ⟨2, 1⟩, 0, [9]⟩]).1 =
      ⟨fun u => if u = "a.go" then some ⟨"a.go", 1, [1, 2, 3], "go", [1, 2, 3], false⟩ else none,
       fun _ => none⟩ :=
  C4_malformed_edit_rejected
    ⟨fun u => if u = "a.go" then some ⟨"a.go", 1, [1, 2, 3], "go", [1, 2, 3], false⟩ else none,
     fun _ => none⟩
    "a.go" 2 ⟨some ⟨2, 1⟩, 0, [9]⟩ [] ⟨2, 1⟩ ⟨"a.go", 1, [1, 2, 3], "go", [1, 2, 3], false⟩
    (by simp) rfl (Or.inl (by decide))

/-- C8: mustReadFile detaches the context (its result is independent
of the caller's cancellation flag) and never propagates a read failure
as a call failure: on any read error, it returns a degraded brokenFile
handle for the same URI whose Content returns the stored error, whose
Identity carries the URI with an empty hash, and which reports
SameContentsOnDisk false and Version 0. -/
theorem C8_mustReadFile_degraded :
    ∀ (readFile : Bool → String → Except String FileHandle)
      (cc : Bool) (uri e : String),
      (mustReadFile readFile cc uri = mustReadFile readFile true uri ∧
       mustReadFile readFile cc uri = mustReadFile readFile false uri) ∧
      (readFile false uri = .error e →
        mustReadFile readFile cc uri = .broken uri e ∧
        (mustReadFile readFile cc uri).Content = .error e ∧
        (mustReadFile readFile cc uri).Identity = ⟨uri, []⟩ ∧
        (mustReadFile readFile cc uri).SameContentsOnDisk = false ∧
        (mustReadFile readFile cc uri).Version = 0 ∧
        (mustReadFile readFile cc uri).URI = uri) := by
  intro readFile cc uri e
  refine ⟨⟨rfl, rfl⟩, ?_⟩
  intro h
  simp [mustReadFile, h, FileHandle.Content, FileHandle.Identity,
    FileHandle.SameContentsOnDisk, FileHandle.Version, FileHandle.URI]

/-- C8 witness: a read that fails with "disk failure" under a
cancelled caller context yields the degraded handle. -/
theorem C8_mustReadFile_degraded_witness :
    mustReadFile (fun _ _ => .error "disk failure") true "a.go" =
      .broken "a.go" "disk failure" :=
  ((C8_mustReadFile_degraded (fun _ _ => .error "disk failure") true "a.go"
      "disk failure").2 rfl).1

/-- C6 counterexample: a batch consisting of a Change to a go.mod file
is a build-manifest modification, and a view whose freshly computed
definition differs from its current one exists, yet DidModifyFiles
does not re-evaluate or recreate any view (checkViews stays false for
go.mod Change actions). -/
theorem C6_goMod_change_counterexample :
    isGoMod "a/go.mod" = true ∧
    (fun _ : View => "defNew") ⟨"1", "defOld", 0⟩ ≠
      (⟨"1", "defOld", 0⟩ : View).viewDefinition ∧
    checkViews [⟨"a/go.mod", Action.Change, false, 0, none, ""⟩] = false ∧
    didModifyFilesViews (fun _ => "defNew") [⟨"1", "defOld", 0⟩]
      [⟨"a/go.mod", Action.Change, false, 0, none, ""⟩] = [⟨"1", "defOld", 0⟩] := by
  decide

/-- C6 (amended): view definitions are re-evaluated, and each view
whose definition changed is recreated via updateViewLocked, exactly
when the batch contains a go.work file modification that is a save or
an on-disk change, or a go.mod file modification whose action is
neither Change nor Save; otherwise the views (and their metadata) are
left untouched. -/
theorem C6_manifest_view_recreation :
    ∀ (getDef : View → String) (views : List View) (changes : List Modification),
      (checkViews changes = true ↔ ∃ c ∈ changes,
         (isGoWork c.URI = true ∧ (c.Action = Action.Save ∨ c.OnDisk = true)) ∨
         (isGoMod c.URI = true ∧ c.Action ≠ Action.Change ∧ c.Action ≠ Action.Save)) ∧
      (checkViews changes = true →
         didModifyFilesViews getDef views changes =
           views.map fun v => if getDef v == v.viewDefinition then v
             else updateView v (getDef v)) ∧
      (checkViews changes = false →
         didModifyFilesViews getDef views changes = views) := by
  intro getDef views changes
  refine ⟨?_, ?_, ?_⟩
  · simp only [checkViews, List.any_eq_true, Bool.or_eq_true, Bool.and_eq_true,
      beq_iff_eq, Bool.not_eq_true', beq_eq_false_iff_ne, and_assoc]
  · intro h
    simp [didModifyFilesViews, h]
  · intro h
    simp [didModifyFilesViews, h]

/-- C6 amended-claim witness: opening a go.mod file triggers
re-evaluation, and the single view, whose definition changed, is
recreated with the new definition and a bumped generation. -/
theorem C6_manifest_view_recreation_witness :
    didModifyFilesViews (fun _ => "defNew") [⟨"1", "defOld", 0⟩]
        [⟨"a/go.mod", Action.Open, false, 0, none, "go.mod"⟩] =
      List.map
        (fun v => if (fun _ : View => "defNew") v == v.viewDefinition then v
          else updateView v ((fun _ : View => "defNew") v))
        [⟨"1", "defOld", 0⟩] :=
  (C6_manifest_view_recreation (fun _ => "defNew") [⟨"1", "defOld", 0⟩]
      [⟨"a/go.mod", Action.Open, false, 0, none, "go.mod"⟩]).2.1 (by decide)

/-- C2: Snapshot.ModVuln releases the mutex between the cache-miss
check (Get) and the store of the new promise (Set). Under the
interleaving in which both of two concurrent callers execute their Get
before either executes its Set, each caller creates, stores and awaits
its own promise, so the underlying computation runs twice for the same
key and Snapshot — contradicting the claim (and the function's own
doc comment) that concurrent requests share one promise and the
computation runs exactly once. A fully serialized interleaving does
run it exactly once. -/
theorem C2_modVuln_duplicate_computation :
    ((execModVuln (initModVuln 2) [0, 1, 0, 0, 1, 1]).callers.all
        fun c => c.pc == CallerPC.finished) = true ∧
    computationsRun (execModVuln (initModVuln 2) [0, 1, 0, 0, 1, 1]) = 2 ∧
    ((execModVuln (initModVuln 2) [0, 0, 0, 1, 1, 1]).callers.all
        fun c => c.pc == CallerPC.finished) = true ∧
    computationsRun (execModVuln (initModVuln 2) [0, 0, 0, 1, 1, 1]) = 1 := by
  decide
